import Mathlib

/-!
# Verification of the employee performance-report pipeline

Shallow embedding of `src/main.py`: CSV ingestion (`read_employees`) and the
grouped-average aggregation (`performance_report`), together with proofs of the
specification claims.

Modelling conventions:
* Python `float` values are modelled by `PyVal`: exact rationals for finite
  values plus the special values `inf`, `-inf` and `nan` (Python's `float()`
  accepts `"inf"`, `"infinity"` and `"nan"` case-insensitively).  Finite
  arithmetic is modelled exactly on `ℚ`; the intermediate rounding of IEEE-754
  doubles is abstracted away.
* Python strings are Lean `String`s; `str.strip()` and code-point-wise
  lexicographic comparison are modelled by structural functions on `List Char`
  (restricted to the ASCII whitespace/letter fragment).
* A CSV file is modelled at row level as a `List (List String)` (the `csv`
  module's quoting layer is outside the embedded core); the filesystem is a
  partial map from path to file content, `none` meaning `FileNotFoundError`.
* `csv.DictReader` semantics: the first row gives the field names, blank rows
  are skipped, short rows are padded with `None` (here `Option.none`), extra
  cells are dropped (they live under the non-string `restkey`), and duplicate
  field names are resolved last-binding-wins as in Python `dict`.
* The single Python exception class `ReportError` carries only a message; the
  five message shapes of the error taxonomy are the five constructors of the
  Lean `ReportError` type.
-/

/-- Python float values: finite (exact rational), infinities, NaN. -/
inductive PyVal : Type where
  | fin (q : ℚ)
  | inf
  | ninf
  | nan
deriving DecidableEq, Repr

/-- Whether a Python float value is finite. -/
def PyVal.isFinite : PyVal → Bool
  | .fin _ => true
  | _ => false

/-- Python `<` on floats: any comparison with NaN is false. -/
def pyLt : PyVal → PyVal → Bool
  | .fin a, .fin b => a < b
  | .fin _, .inf => true
  | .ninf, .fin _ => true
  | .ninf, .inf => true
  | _, _ => false

/-- Python `==` on floats: `nan == nan` is false. -/
def pyEq : PyVal → PyVal → Bool
  | .fin a, .fin b => a = b
  | .inf, .inf => true
  | .ninf, .ninf => true
  | _, _ => false

/-- Python unary minus on floats. -/
def pyNeg : PyVal → PyVal
  | .fin a => .fin (-a)
  | .inf => .ninf
  | .ninf => .inf
  | .nan => .nan

/-- Python `+` on floats (finite arithmetic modelled exactly on `ℚ`). -/
def pyAdd : PyVal → PyVal → PyVal
  | .nan, _ => .nan
  | _, .nan => .nan
  | .inf, .ninf => .nan
  | .ninf, .inf => .nan
  | .inf, _ => .inf
  | _, .inf => .inf
  | .ninf, _ => .ninf
  | _, .ninf => .ninf
  | .fin a, .fin b => .fin (a + b)

/-- Python `/` on floats.  Division by zero raises `ZeroDivisionError` in
Python; it is unreachable in this program (the divisor is a positive count)
and is mapped to `nan` here. -/
def pyDiv : PyVal → PyVal → PyVal
  | .nan, _ => .nan
  | _, .nan => .nan
  | .inf, .inf => .nan
  | .inf, .ninf => .nan
  | .ninf, .inf => .nan
  | .ninf, .ninf => .nan
  | .inf, .fin b => if b = 0 then .nan else if b < 0 then .ninf else .inf
  | .ninf, .fin b => if b = 0 then .nan else if b < 0 then .inf else .ninf
  | .fin _, .inf => .fin 0
  | .fin _, .ninf => .fin 0
  | .fin a, .fin b => if b = 0 then .nan else .fin (a / b)

/-- Round-half-to-even to an integer, the rounding of Python's `round`. -/
def roundHalfEven (x : ℚ) : ℤ :=
  let n := ⌊x⌋
  if x - n < 1/2 then n
  else if 1/2 < x - n then n + 1
  else if n % 2 = 0 then n else n + 1

/-- Python `round(x, 2)`: banker's rounding at two decimal places
(`round(nan, 2) = nan`, `round(±inf, 2) = ±inf`). -/
def pyRound2 : PyVal → PyVal
  | .fin q => .fin ((roundHalfEven (q * 100) : ℚ) / 100)
  | v => v

/-! ## Python string helpers (ASCII fragment), on `List Char` -/

/-- Whitespace stripped by Python `str.strip()` (ASCII fragment). -/
def isSpaceChar (c : Char) : Bool :=
  c = ' ' || c = '\t' || c = '\n' || c = '\r' || c = '\x0b' || c = '\x0c'

/-- Python `str.strip()` on a character list. -/
def pyStrip (cs : List Char) : List Char :=
  ((cs.dropWhile isSpaceChar).reverse.dropWhile isSpaceChar).reverse

/-- ASCII lower-casing of one character. -/
def lowChar : Char → Char
  | 'A' => 'a' | 'B' => 'b' | 'C' => 'c' | 'D' => 'd' | 'E' => 'e' | 'F' => 'f'
  | 'G' => 'g' | 'H' => 'h' | 'I' => 'i' | 'J' => 'j' | 'K' => 'k' | 'L' => 'l'
  | 'M' => 'm' | 'N' => 'n' | 'O' => 'o' | 'P' => 'p' | 'Q' => 'q' | 'R' => 'r'
  | 'S' => 's' | 'T' => 't' | 'U' => 'u' | 'V' => 'v' | 'W' => 'w' | 'X' => 'x'
  | 'Y' => 'y' | 'Z' => 'z' | c => c

/-- Code-point-wise lexicographic `<` on character lists, Python's `str` `<`. -/
def listLt : List Char → List Char → Bool
  | [], [] => false
  | [], _ :: _ => true
  | _ :: _, [] => false
  | a :: as, b :: bs => if a < b then true else if b < a then false else listLt as bs

/-- Python `str` `<=`, the negation of the reversed strict comparison. -/
def listLe (a b : List Char) : Bool := !(listLt b a)

/-- Python `str.strip()` on a `String`. -/
def pyStripStr (s : String) : String := String.mk (pyStrip s.data)

/-! ## The grammar of Python `float(str)` -/

/-- Is `c` an ASCII decimal digit? -/
def isDig (c : Char) : Bool := '0' ≤ c && c ≤ '9'

/-- PEP-515 check: every underscore flanked by digits (`prev` is the previous
character, if any). -/
def okUnderscore : Option Char → List Char → Bool
  | _, [] => true
  | prev, '_' :: rest =>
    (match prev with | some p => isDig p | none => false) &&
    (match rest with | r :: _ => isDig r | [] => false) &&
    okUnderscore (some '_') rest
  | _, c :: rest => okUnderscore (some c) rest

/-- Numeric value of a digit character. -/
def digVal (c : Char) : Nat := c.toNat - '0'.toNat

/-- Decimal value of a digit string. -/
def digitsToNat (cs : List Char) : Nat := cs.foldl (fun n c => 10 * n + digVal c) 0

/-- Split a character list at the first occurrence of `sep` (if any). -/
def splitAtChar (sep : Char) : List Char → List Char × Option (List Char)
  | [] => ([], none)
  | c :: cs =>
    if c = sep then ([], some cs)
    else
      let r := splitAtChar sep cs
      (c :: r.1, r.2)

/-- Parse an exponent part (after `e`): optional sign, then digits. -/
def parseExp : List Char → Option ℤ
  | [] => none
  | '+' :: cs => if cs ≠ [] && cs.all isDig then some (digitsToNat cs) else none
  | '-' :: cs => if cs ≠ [] && cs.all isDig then some (-(digitsToNat cs : ℤ)) else none
  | cs => if cs.all isDig then some (digitsToNat cs) else none

/-- Value of mantissa digits `ip . fp` scaled by `10 ^ e`. -/
def ratOfDigits (ip fp : List Char) (e : ℤ) : ℚ :=
  (digitsToNat (ip ++ fp) : ℚ) * (10 : ℚ) ^ (e - (fp.length : ℤ))

/-- Parse an unsigned decimal literal (underscores already removed):
`digits [. digits] [e [sign] digits]`, at least one mantissa digit. -/
def parseDecimal (cs : List Char) : Option ℚ :=
  let me := splitAtChar 'e' cs
  let if' := splitAtChar '.' me.1
  let ip := if'.1
  let fp := (if'.2).getD []
  if ip.all isDig && fp.all isDig && !(ip = [] && fp = []) then
    match me.2 with
    | none => some (ratOfDigits ip fp 0)
    | some ecs =>
      match parseExp ecs with
      | some e => some (ratOfDigits ip fp e)
      | none => none
  else none

/-- Python `float(str)`: strip whitespace, optional sign, then `inf`,
`infinity`, `nan` (case-insensitive) or a decimal literal with PEP-515
underscores.  `none` models `ValueError`.  (ASCII fragment: Unicode digits and
exotic whitespace accepted by CPython are not modelled.) -/
def pyFloat? (s : String) : Option PyVal :=
  let cs := (pyStrip s.data).map lowChar
  let sr : Bool × List Char :=
    match cs with
    | '+' :: r => (false, r)
    | '-' :: r => (true, r)
    | r => (false, r)
  let neg := sr.1
  let rest := sr.2
  if rest = ['i', 'n', 'f'] || rest = ['i', 'n', 'f', 'i', 'n', 'i', 't', 'y'] then
    some (if neg then .ninf else .inf)
  else if rest = ['n', 'a', 'n'] then
    some .nan
  else if okUnderscore none rest then
    match parseDecimal (rest.filter (fun c => c ≠ '_')) with
    | some q => some (.fin (if neg then -q else q))
    | none => none
  else none

/-! ## Records and `csv.DictReader` -/

/-- One parsed CSV row as produced by `csv.DictReader`: an insertion-ordered
association of field name to cell value (`none` is Python `None`, the
`restval` used for missing trailing cells). -/
abbrev Record : Type := List (String × Option String)

/-- The binding of the last assignment to key `k`, mirroring Python `dict`
construction where later assignments overwrite earlier ones. -/
def lookupLast : Record → String → Option (Option String)
  | [], _ => none
  | kv :: rest, k =>
    match lookupLast rest k with
    | some w => some w
    | none => if kv.1 = k then some kv.2 else none

/-- Python `row.get(k)`: `None` both for an absent key and for a `None`
value. -/
def dictGet (r : Record) (k : String) : Option String :=
  (lookupLast r k).bind id

/-- `dict(zip(fieldnames, row))` followed by `DictReader`'s `restval`
padding: pair each field name with the corresponding cell, `none` when the
row is shorter; extra cells are dropped (they go under `restkey`). -/
def makeRecord : List String → List String → Record
  | [], _ => []
  | f :: fs, [] => (f, none) :: makeRecord fs []
  | f :: fs, c :: cs => (f, some c) :: makeRecord fs cs

/-! ## Errors and ingestion (`read_employees`) -/

/-- The five message shapes of the single Python exception class
`ReportError` (spec §7's unified error taxonomy). -/
inductive ReportError : Type where
  | fileNotFound (path : String)
  | missingHeader (path : String)
  | missingColumns (path : String) (missingStr : String)
  | emptyDataset
  | noValidData
deriving DecidableEq, Repr

/-- A filesystem: path to row-level file content, `none` when opening raises
`FileNotFoundError`. -/
def FS : Type := String → Option (List (List String))

/-- `sorted({"position", "performance"} - set(fieldnames))`: the required
columns are filtered in alphabetical order, so the result is sorted. -/
def missingCols (fieldnames : List String) : List String :=
  ["performance", "position"].filter (fun c => !(fieldnames.contains c))

/-- Read one file the way the `for path in files` body does: `FileNotFoundError`
becomes `fileNotFound`; an absent or empty first row (`not reader.fieldnames`)
is `missingHeader`; missing required columns are reported comma-joined in
alphabetical order; otherwise every non-blank data row becomes a record. -/
def readFile (fs : FS) (path : String) : Except ReportError (List Record) :=
  match fs path with
  | none => .error (.fileNotFound path)
  | some content =>
    match content with
    | [] => .error (.missingHeader path)
    | fieldnames :: body =>
      if fieldnames = [] then .error (.missingHeader path)
      else if missingCols fieldnames ≠ [] then
        .error (.missingColumns path (String.intercalate ", " (missingCols fieldnames)))
      else
        .ok ((body.filter (fun row => row ≠ [])).map (makeRecord fieldnames))

/-- The ingestion loop: files in order, each file's rows appended in order;
the first failing file aborts the run. -/
def readAll (fs : FS) : List String → Except ReportError (List Record)
  | [] => .ok []
  | path :: rest =>
    match readFile fs path with
    | .error e => .error e
    | .ok rs =>
      match readAll fs rest with
      | .error e => .error e
      | .ok more => .ok (rs ++ more)

/-- `read_employees`: read all files, then fail with `emptyDataset` if no
data row was obtained. -/
def read_employees (fs : FS) (files : List String) : Except ReportError (List Record) :=
  match readAll fs files with
  | .error e => .error e
  | .ok employees => if employees.isEmpty then .error .emptyDataset else .ok employees

/-! ## Aggregation (`performance_report`) -/

/-- A cell of a report row (`List[List]` in Python holds strings and floats). -/
inductive Cell : Type where
  | str (s : String)
  | num (v : PyVal)
deriving DecidableEq, Repr

/-- The report: headers plus rows. -/
structure ReportResult : Type where
  headers : List String
  rows : List (List Cell)
deriving DecidableEq, Repr

/-- The accumulator `totals`: a Python dict from position to
(running sum, count), modelled with its insertion order. -/
abbrev Totals : Type := List (String × PyVal × Nat)

/-- `totals[position] = (total + performance, count + 1)` starting from the
default `(0.0, 0)`: update in place if the key exists, else append. -/
def updateTotals : Totals → String → PyVal → Totals
  | [], p, v => [(p, pyAdd (.fin 0) v, 1)]
  | e :: rest, p, v =>
    if e.1 = p then (e.1, pyAdd e.2.1 v, e.2.2 + 1) :: rest
    else e :: updateTotals rest p v

/-- The loop body's effect on one record: `None` fields, a blank stripped
position, or an unparseable performance value mean the record is skipped;
otherwise it contributes its parsed value under its stripped position. -/
def recordEntry (r : Record) : Option (String × PyVal) :=
  match dictGet r "position", dictGet r "performance" with
  | some praw, some perfraw =>
    let position := pyStripStr praw
    if position = "" then none
    else
      match pyFloat? perfraw with
      | none => none
      | some v => some (position, v)
  | _, _ => none

/-- One iteration of the accumulation loop. -/
def step (t : Totals) (r : Record) : Totals :=
  match recordEntry r with
  | none => t
  | some (p, v) => updateTotals t p v

/-- The sort key comparison: Python compares `(-row[1], row[0])` tuples with
`<`, i.e. lexicographically via float `<`/`==` and string `<`. -/
def keyLT (a b : String × PyVal) : Bool :=
  pyLt (pyNeg a.2) (pyNeg b.2) ||
    (pyEq (pyNeg a.2) (pyNeg b.2) && listLt a.1.data b.1.data)

/-- Stable insertion of `x` (earlier in the original list) into the sorted
list of later elements: `x` passes every `y` with `y < x` and stops. -/
def insertLT (x : String × PyVal) : List (String × PyVal) → List (String × PyVal)
  | [] => [x]
  | y :: ys => if keyLT y x then y :: insertLT x ys else x :: y :: ys

/-- `rows.sort(key=lambda row: (-row[1], row[0]))`: Python's sort is stable;
it is modelled as a stable insertion sort, which computes the same list for
every strict-weak-order comparison, and coincides with Python's binary
insertion on two-element lists even for NaN keys. -/
def pySortRows (l : List (String × PyVal)) : List (String × PyVal) :=
  l.foldr insertLT []

/-- The pre-sort row list: one `(position, round(total / count, 2))` pair per
accumulator entry, in dict insertion order. -/
def rowsOfTotals (t : Totals) : List (String × PyVal) :=
  t.map (fun e => (e.1, pyRound2 (pyDiv e.2.1 (.fin (e.2.2 : ℚ)))))

/-- `performance_report`: accumulate, fail with `noValidData` when nothing
accumulated, else round the averages, sort and attach the fixed headers. -/
def performance_report (employees : List Record) : Except ReportError ReportResult :=
  let totals := employees.foldl step []
  if totals.isEmpty then .error .noValidData
  else
    .ok
      { headers := ["position", "performance"]
        rows := (pySortRows (rowsOfTotals totals)).map (fun r => [Cell.str r.1, Cell.num r.2]) }

/-! ## Claim-side definitions -/

/-- The parsed performance values that the claim says contribute to position
`p`: records with both fields present, stripped position exactly `p`
(non-blank), and a parseable performance value, in sequence order. -/
def validPerfs (employees : List Record) (p : String) : List PyVal :=
  employees.filterMap fun r =>
    (recordEntry r).bind fun e => if e.1 = p then some e.2 else none

/-- The running sum `(0.0 + v₁) + v₂ + ⋯` of a list of float values. -/
def pySum (l : List PyVal) : PyVal := l.foldl pyAdd (.fin 0)

/-- A record the aggregation loop skips: an absent field, a blank stripped
position, or an unparseable performance value. -/
def skippedRecord (r : Record) : Prop :=
  match dictGet r "position", dictGet r "performance" with
  | some praw, some perfraw => pyStripStr praw = "" ∨ pyFloat? perfraw = none
  | _, _ => True

/-- The claim's composite display order on report rows: strictly greater
average first, ties by ascending (code-point lexicographic) position name. -/
def rowOrdB (a b : String × PyVal) : Bool :=
  pyLt b.2 a.2 || (pyEq a.2 b.2 && listLe a.1.data b.1.data)

/-- `rowOrdB` lifted to rendered report rows (`False` off the
`[position, value]` shape, which every produced row has). -/
def cellOrdB : List Cell → List Cell → Bool
  | [Cell.str p, Cell.num v], [Cell.str q, Cell.num w] => rowOrdB (p, v) (q, w)
  | _, _ => false

/-- The `(sum, count)` entry stored for key `p`, if any. -/
def findTotal (t : Totals) (p : String) : Option (PyVal × Nat) :=
  (t.find? fun e => e.1 = p).map fun e => e.2

/-- The keys of the accumulator, in insertion order. -/
def totalsKeys (t : Totals) : List String := t.map fun e => e.1

/-- A file that passes the per-file checks: it opens, its first row exists
and is non-empty, and no required column is missing. -/
def fileOK (fs : FS) (p : String) : Bool :=
  match fs p with
  | some (h :: _) => !(h = []) && (missingCols h).isEmpty
  | _ => false

/-- The records a well-formed file contributes: its non-blank data rows, in
order, each keyed by the file's header. -/
def fileRecords (fs : FS) (p : String) : List Record :=
  match fs p with
  | some (h :: body) => (body.filter (fun row => row ≠ [])).map (makeRecord h)
  | _ => []

/-! ## Concrete instances used by witnesses and counterexamples -/

/-- Two `A` records and one `B` record, all valid. -/
def empAvg : List Record :=
  [[("position", some "A"), ("performance", some "4.8")],
   [("position", some "A"), ("performance", some "5.0")],
   [("position", some "B"), ("performance", some "4.5")]]

/-- The report on `empAvg`: `A` averages `4.9`, `B` `4.5`. -/
def resAvg : ReportResult :=
  { headers := ["position", "performance"]
    rows := [[Cell.str "A", Cell.num (PyVal.fin (49/10))],
             [Cell.str "B", Cell.num (PyVal.fin (9/2))]] }

/-- A tie: `B` and `A` both average `4.5`; `A` must come first. -/
def empTie : List Record :=
  [[("position", some "B"), ("performance", some "4.5")],
   [("position", some "A"), ("performance", some "4.5")],
   [("position", some "B"), ("performance", some "4.5")]]

/-- The report on `empTie`, alphabetical within the tie. -/
def resTie : ReportResult :=
  { headers := ["position", "performance"]
    rows := [[Cell.str "A", Cell.num (PyVal.fin (9/2))],
             [Cell.str "B", Cell.num (PyVal.fin (9/2))]] }

/-- A `nan` performance for `B` alongside a valid record for `A`. -/
def empNan : List Record :=
  [[("position", some "B"), ("performance", some "nan")],
   [("position", some "A"), ("performance", some "1")]]

/-- The report on `empNan`: Python's stable sort leaves the NaN row first
(every key comparison against NaN is false). -/
def resNan : ReportResult :=
  { headers := ["position", "performance"]
    rows := [[Cell.str "B", Cell.num PyVal.nan],
             [Cell.str "A", Cell.num (PyVal.fin 1)]] }

/-- A single record whose performance is the string `"nan"`. -/
def empNanOnly : List Record :=
  [[("position", some "A"), ("performance", some "nan")]]

/-- The report on `empNanOnly`: the record is counted, the average is NaN. -/
def resNanOnly : ReportResult :=
  { headers := ["position", "performance"]
    rows := [[Cell.str "A", Cell.num PyVal.nan]] }

/-- A single record with a non-numeric performance value. -/
def empBad : List Record :=
  [[("position", some "A"), ("performance", some "abc")]]

/-- A two-file filesystem: `a.csv` has two data rows, `b.csv` one. -/
def fsTwo : FS := fun p =>
  if p = "a.csv" then
    some [["name", "position", "performance"],
          ["x", "A", "4.8"],
          ["y", "B", "5.0"]]
  else if p = "b.csv" then
    some [["position", "performance"], ["A", "4.7"]]
  else none

/-- A filesystem with one file whose header lacks `position`. -/
def fsNoPos : FS := fun p =>
  if p = "bad.csv" then some [["name", "performance"], ["x", "4.8"]] else none

/-- A filesystem with one good file; `nope.csv` does not exist. -/
def fsOneGood : FS := fun p =>
  if p = "a.csv" then some [["position", "performance"], ["A", "4.8"]] else none

/-- A filesystem with one completely empty file and one good file. -/
def fsEmptyFile : FS := fun p =>
  if p = "empty.csv" then some []
  else if p = "a.csv" then some [["position", "performance"], ["A", "4.8"]]
  else none

/-- A filesystem whose two files contain only their header lines. -/
def fsHeadersOnly : FS := fun p =>
  if p = "a.csv" then some [["position", "performance"]]
  else if p = "b.csv" then some [["name", "position", "performance"]]
  else none

/-! ## Ingestion lemmas -/

theorem readFile_ok_of_fileOK (fs : FS) (p : String) (h : fileOK fs p = true) :
    readFile fs p = .ok (fileRecords fs p) := by
  unfold fileOK at h
  cases hfs : fs p with
  | none => rw [hfs] at h; simp at h
  | some content =>
    cases content with
    | nil => rw [hfs] at h; simp at h
    | cons hd body =>
      rw [hfs] at h
      simp only [Bool.and_eq_true, Bool.not_eq_true', decide_eq_false_iff_not,
        List.isEmpty_iff] at h
      unfold readFile fileRecords
      rw [hfs]
      simp [h.1, h.2]

theorem readAll_ok_of_fileOK (fs : FS) (files : List String)
    (h : ∀ p ∈ files, fileOK fs p = true) :
    readAll fs files = .ok (files.flatMap (fileRecords fs)) := by
  induction files with
  | nil => simp [readAll]
  | cons q rest ih =>
    have hq := readFile_ok_of_fileOK fs q (h q (by simp))
    have hr := ih (fun p hp => h p (by simp [hp]))
    simp [readAll, hq, hr]

theorem readAll_ok_mem (fs : FS) (files : List String) (rs : List Record)
    (h : readAll fs files = .ok rs) (p : String) (hp : p ∈ files) :
    ∃ rr, readFile fs p = .ok rr := by
  induction files generalizing rs with
  | nil => simp at hp
  | cons q rest ih =>
    unfold readAll at h
    cases hq : readFile fs q with
    | error e => rw [hq] at h; simp at h
    | ok qs =>
      rw [hq] at h
      cases hr : readAll fs rest with
      | error e => rw [hr] at h; simp at h
      | ok more =>
        rcases List.mem_cons.mp hp with rfl | hp'
        · exact ⟨qs, hq⟩
        · exact ih more hr hp'

theorem readAll_error_after_ok_files (fs : FS) (pre : List String) (f : String)
    (post : List String) (e : ReportError)
    (hpre : ∀ q ∈ pre, ∃ rr, readFile fs q = .ok rr)
    (hf : readFile fs f = .error e) :
    readAll fs (pre ++ f :: post) = .error e := by
  induction pre with
  | nil => simp [readAll, hf]
  | cons q pres ih =>
    obtain ⟨rr, hq⟩ := hpre q (by simp)
    have := ih (fun q' hq' => hpre q' (by simp [hq']))
    simp [readAll, hq, this]

theorem read_employees_error_of_readAll (fs : FS) (files : List String) (e : ReportError)
    (h : readAll fs files = .error e) : read_employees fs files = .error e := by
  simp [read_employees, h]

theorem read_employees_ok_readAll (fs : FS) (files : List String) (rs : List Record)
    (h : read_employees fs files = .ok rs) :
    readAll fs files = .ok rs ∧ rs ≠ [] := by
  unfold read_employees at h
  cases hr : readAll fs files with
  | error e => rw [hr] at h; simp at h
  | ok employees =>
    rw [hr] at h
    by_cases he : employees.isEmpty
    · simp [he] at h
    · simp [he] at h
      subst h
      exact ⟨rfl, by simpa [List.isEmpty_iff] using he⟩

/-- C3: for well-formed files with at least one data row overall,
`read_employees` returns the in-order concatenation of the per-file record
lists, each record keyed by its own file's header; the result's length is the
sum of the per-file data-row counts. -/
theorem read_employees_concat (fs : FS) (files : List String)
    (hok : ∀ p ∈ files, fileOK fs p = true)
    (hnz : files.flatMap (fileRecords fs) ≠ []) :
    read_employees fs files = .ok (files.flatMap (fileRecords fs)) ∧
      (files.flatMap (fileRecords fs)).length =
        (files.map (fun p => (fileRecords fs p).length)).sum := by
  have hall := readAll_ok_of_fileOK fs files hok
  constructor
  · simp [read_employees, hall, List.isEmpty_iff, hnz]
  · rw [List.length_flatMap]
    rfl

/-- C3 witness: two concrete files, three data rows in total. -/
theorem read_employees_concat_witness :
    read_employees fsTwo ["a.csv", "b.csv"] =
      .ok (["a.csv", "b.csv"].flatMap (fileRecords fsTwo)) ∧
      (["a.csv", "b.csv"].flatMap (fileRecords fsTwo)).length =
        (["a.csv", "b.csv"].map (fun p => (fileRecords fsTwo p).length)).sum :=
  read_employees_concat fsTwo ["a.csv", "b.csv"] (by decide) (by decide)

/-- C4: a file whose (non-empty) header lacks a required column makes the
whole run fail; when the files before it are readable, the error is
`missingColumns` naming that file and the comma-joined missing columns, and
the missing-column list is sorted (code-point) alphabetically. -/
theorem read_employees_missing_columns (fs : FS) (pre post : List String) (f : String)
    (fieldnames : List String) (body : List (List String))
    (hf : fs f = some (fieldnames :: body)) (hne : fieldnames ≠ [])
    (hmiss : missingCols fieldnames ≠ []) :
    (∀ rs, read_employees fs (pre ++ f :: post) ≠ .ok rs) ∧
      List.Pairwise (fun a b => listLe a.data b.data = true) (missingCols fieldnames) ∧
      ((∀ q ∈ pre, ∃ rr, readFile fs q = .ok rr) →
        read_employees fs (pre ++ f :: post) =
          .error (.missingColumns f (String.intercalate ", " (missingCols fieldnames)))) := by
  have herr : readFile fs f =
      .error (.missingColumns f (String.intercalate ", " (missingCols fieldnames))) := by
    unfold readFile
    rw [hf]
    simp [hne, hmiss]
  refine ⟨?_, ?_, ?_⟩
  · intro rs hok
    obtain ⟨hall, _⟩ := read_employees_ok_readAll fs _ rs hok
    obtain ⟨rr, hrr⟩ := readAll_ok_mem fs _ rs hall f (by simp)
    rw [herr] at hrr
    exact Except.noConfusion hrr
  · exact List.Pairwise.filter _ (by decide)
  · intro hpre
    exact read_employees_error_of_readAll fs _ _
      (readAll_error_after_ok_files fs pre f post _ hpre herr)

/-- C4 witness: one file missing the `position` column. -/
theorem read_employees_missing_columns_witness :
    (∀ rs, read_employees fsNoPos ["bad.csv"] ≠ .ok rs) ∧
      List.Pairwise (fun a b => listLe a.data b.data = true)
        (missingCols ["name", "performance"]) ∧
      ((∀ q ∈ ([] : List String), ∃ rr, readFile fsNoPos q = .ok rr) →
        read_employees fsNoPos ["bad.csv"] =
          .error (.missingColumns "bad.csv"
            (String.intercalate ", " (missingCols ["name", "performance"])))) :=
  read_employees_missing_columns fsNoPos [] [] "bad.csv" ["name", "performance"]
    [["x", "4.8"]] (by decide) (by decide) (by decide)

/-- C5: a path that does not open makes the whole run fail, however many
valid files surround it; when the files before it are readable the error is
`fileNotFound` naming the path, a constructor of the same `ReportError`
taxonomy as the header and column failures. -/
theorem read_employees_file_not_found (fs : FS) (pre post : List String) (f : String)
    (hf : fs f = none) :
    (∀ rs, read_employees fs (pre ++ f :: post) ≠ .ok rs) ∧
      ((∀ q ∈ pre, ∃ rr, readFile fs q = .ok rr) →
        read_employees fs (pre ++ f :: post) = .error (.fileNotFound f)) := by
  have herr : readFile fs f = .error (.fileNotFound f) := by
    unfold readFile
    rw [hf]
  constructor
  · intro rs hok
    obtain ⟨hall, _⟩ := read_employees_ok_readAll fs _ rs hok
    obtain ⟨rr, hrr⟩ := readAll_ok_mem fs _ rs hall f (by simp)
    rw [herr] at hrr
    exact Except.noConfusion hrr
  · intro hpre
    exact read_employees_error_of_readAll fs _ _
      (readAll_error_after_ok_files fs pre f post _ hpre herr)

/-- C5 witness: a good file first, then a nonexistent path. -/
theorem read_employees_file_not_found_witness :
    (∀ rs, read_employees fsOneGood ["a.csv", "nope.csv"] ≠ .ok rs) ∧
      ((∀ q ∈ ["a.csv"], ∃ rr, readFile fsOneGood q = .ok rr) →
        read_employees fsOneGood ["a.csv", "nope.csv"] =
          .error (.fileNotFound "nope.csv")) :=
  read_employees_file_not_found fsOneGood ["a.csv"] [] "nope.csv" (by decide)

/-- C8: a file with no header line at all (empty, or opening with a blank
line) makes the whole run fail; when the files before it are readable the
error is `missingHeader` naming that file. -/
theorem read_employees_missing_header (fs : FS) (pre post : List String) (f : String)
    (content : List (List String)) (hf : fs f = some content)
    (hc : content = [] ∨ content.head? = some []) :
    (∀ rs, read_employees fs (pre ++ f :: post) ≠ .ok rs) ∧
      ((∀ q ∈ pre, ∃ rr, readFile fs q = .ok rr) →
        read_employees fs (pre ++ f :: post) = .error (.missingHeader f)) := by
  have herr : readFile fs f = .error (.missingHeader f) := by
    unfold readFile
    rw [hf]
    rcases hc with rfl | hh
    · rfl
    · cases content with
      | nil => rfl
      | cons hd body =>
        simp only [List.head?_cons, Option.some.injEq] at hh
        simp [hh]
  constructor
  · intro rs hok
    obtain ⟨hall, _⟩ := read_employees_ok_readAll fs _ rs hok
    obtain ⟨rr, hrr⟩ := readAll_ok_mem fs _ rs hall f (by simp)
    rw [herr] at hrr
    exact Except.noConfusion hrr
  · intro hpre
    exact read_employees_error_of_readAll fs _ _
      (readAll_error_after_ok_files fs pre f post _ hpre herr)

/-- C8 witness: a completely empty file listed after a good file. -/
theorem read_employees_missing_header_witness :
    (∀ rs, read_employees fsEmptyFile ["a.csv", "empty.csv"] ≠ .ok rs) ∧
      ((∀ q ∈ ["a.csv"], ∃ rr, readFile fsEmptyFile q = .ok rr) →
        read_employees fsEmptyFile ["a.csv", "empty.csv"] =
          .error (.missingHeader "empty.csv")) :=
  read_employees_missing_header fsEmptyFile ["a.csv"] [] "empty.csv" []
    (by decide) (Or.inl rfl)

/-- C6: when every file passes the per-file checks but contributes no data
row, `read_employees` fails with `emptyDataset` (checked once, after the file
loop); and no successful run ever returns an empty sequence. -/
theorem read_employees_empty_dataset (fs : FS) (files : List String)
    (hok : ∀ p ∈ files, fileOK fs p = true)
    (hempty : ∀ p ∈ files, fileRecords fs p = []) :
    read_employees fs files = .error .emptyDataset ∧
      (∀ g : FS, ∀ fl rs, read_employees g fl = .ok rs → rs ≠ []) := by
  constructor
  · have hall := readAll_ok_of_fileOK fs files hok
    have hnil : files.flatMap (fileRecords fs) = [] := by
      rw [List.flatMap_eq_nil_iff]
      exact fun p hp => hempty p hp
    rw [hnil] at hall
    simp [read_employees, hall]
  · intro g fl rs hok'
    exact (read_employees_ok_readAll g fl rs hok').2

/-- C6 witness: two files that contain only header lines. -/
theorem read_employees_empty_dataset_witness :
    read_employees fsHeadersOnly ["a.csv", "b.csv"] = .error .emptyDataset ∧
      (∀ g : FS, ∀ fl rs, read_employees g fl = .ok rs → rs ≠ []) :=
  read_employees_empty_dataset fsHeadersOnly ["a.csv", "b.csv"] (by decide) (by decide)


/-! ## Accumulator lemmas -/

theorem validPerfs_nil (p : String) : validPerfs [] p = [] := rfl

theorem validPerfs_cons (r : Record) (emp : List Record) (p : String) :
    validPerfs (r :: emp) p =
      match recordEntry r with
      | some e => if e.1 = p then e.2 :: validPerfs emp p else validPerfs emp p
      | none => validPerfs emp p := by
  unfold validPerfs
  rw [List.filterMap_cons]
  cases h : recordEntry r with
  | none => simp [h]
  | some e =>
    by_cases hp : e.1 = p
    · simp [h, hp]
    · simp [h, hp]

theorem findTotal_cons_pos (x : String × PyVal × Nat) (rest : Totals) (p : String)
    (h : x.1 = p) : findTotal (x :: rest) p = some x.2 := by
  simp [findTotal, List.find?_cons_of_pos, h]

theorem findTotal_cons_neg (x : String × PyVal × Nat) (rest : Totals) (p : String)
    (h : ¬ x.1 = p) : findTotal (x :: rest) p = findTotal rest p := by
  simp [findTotal, List.find?_cons_of_neg, h]

theorem updateTotals_cons_pos (e : String × PyVal × Nat) (rest : Totals)
    (q : String) (v : PyVal) (h : e.1 = q) :
    updateTotals (e :: rest) q v = (e.1, pyAdd e.2.1 v, e.2.2 + 1) :: rest := by
  simp [updateTotals, h]

theorem updateTotals_cons_neg (e : String × PyVal × Nat) (rest : Totals)
    (q : String) (v : PyVal) (h : ¬ e.1 = q) :
    updateTotals (e :: rest) q v = e :: updateTotals rest q v := by
  simp [updateTotals, h]

theorem findTotal_updateTotals (t : Totals) (q : String) (v : PyVal) (p : String) :
    findTotal (updateTotals t q v) p =
      if q = p then
        match findTotal t p with
        | some sc => some (pyAdd sc.1 v, sc.2 + 1)
        | none => some (pyAdd (.fin 0) v, 1)
      else findTotal t p := by
  induction t with
  | nil =>
    by_cases hqp : q = p <;>
      simp [updateTotals, findTotal, List.find?, hqp]
  | cons e rest ih =>
    by_cases heq : e.1 = q
    · rw [updateTotals_cons_pos e rest q v heq]
      by_cases hqp : q = p
      · have hep : e.1 = p := heq.trans hqp
        rw [findTotal_cons_pos (e.1, pyAdd e.2.1 v, e.2.2 + 1) rest p hep,
          findTotal_cons_pos e rest p hep, if_pos hqp]
      · have hep : ¬ e.1 = p := fun hc => hqp (heq ▸ hc)
        rw [findTotal_cons_neg (e.1, pyAdd e.2.1 v, e.2.2 + 1) rest p hep,
          findTotal_cons_neg e rest p hep, if_neg hqp]
    · rw [updateTotals_cons_neg e rest q v heq]
      by_cases hep : e.1 = p
      · have hqp : ¬ q = p := fun hc => heq (hep.trans hc.symm)
        rw [findTotal_cons_pos e _ p hep, if_neg hqp, findTotal_cons_pos e rest p hep]
      · rw [findTotal_cons_neg e _ p hep, findTotal_cons_neg e rest p hep, ih]

theorem foldl_step_findTotal (emp : List Record) : ∀ (t : Totals) (p : String),
    findTotal (emp.foldl step t) p =
      match findTotal t p with
      | some sc =>
        some ((validPerfs emp p).foldl pyAdd sc.1, sc.2 + (validPerfs emp p).length)
      | none =>
        if validPerfs emp p = [] then none
        else some (pySum (validPerfs emp p), (validPerfs emp p).length) := by
  induction emp with
  | nil =>
    intro t p
    cases h : findTotal t p <;> simp [validPerfs_nil, pySum, h]
  | cons r rest ih =>
    intro t p
    cases hre : recordEntry r with
    | none =>
      have hstep : step t r = t := by simp [step, hre]
      have hv : validPerfs (r :: rest) p = validPerfs rest p := by
        rw [validPerfs_cons, hre]
      rw [List.foldl_cons, hstep, ih, hv]
    | some e =>
      have hstep : step t r = updateTotals t e.1 e.2 := by simp [step, hre]
      have hv : validPerfs (r :: rest) p =
          if e.1 = p then e.2 :: validPerfs rest p else validPerfs rest p := by
        rw [validPerfs_cons, hre]
      rw [List.foldl_cons, hstep, ih, findTotal_updateTotals, hv]
      by_cases hp : e.1 = p
      · rw [if_pos hp, if_pos hp]
        cases h : findTotal t p with
        | some sc =>
          simp only [List.foldl_cons, List.length_cons, Option.some.injEq, Prod.mk.injEq]
          exact ⟨trivial, by omega⟩
        | none =>
          rw [if_neg (List.cons_ne_nil _ _)]
          simp only [pySum, List.foldl_cons, List.length_cons, Option.some.injEq,
            Prod.mk.injEq]
          exact ⟨trivial, by omega⟩
      · rw [if_neg hp, if_neg hp]

theorem totalsKeys_cons (e : String × PyVal × Nat) (rest : Totals) :
    totalsKeys (e :: rest) = e.1 :: totalsKeys rest := rfl

theorem totalsKeys_updateTotals (t : Totals) (q : String) (v : PyVal) :
    totalsKeys (updateTotals t q v) =
      if q ∈ totalsKeys t then totalsKeys t else totalsKeys t ++ [q] := by
  induction t with
  | nil => simp [updateTotals, totalsKeys]
  | cons e rest ih =>
    by_cases heq : e.1 = q
    · rw [updateTotals_cons_pos e rest q v heq]
      have hq : q ∈ totalsKeys (e :: rest) := by
        rw [totalsKeys_cons, heq]
        exact List.mem_cons_self _ _
      rw [if_pos hq, totalsKeys_cons, totalsKeys_cons]
    · rw [updateTotals_cons_neg e rest q v heq, totalsKeys_cons, ih]
      have hmem : q ∈ totalsKeys (e :: rest) ↔ q ∈ totalsKeys rest := by
        rw [totalsKeys_cons, List.mem_cons]
        exact ⟨fun h => h.resolve_left fun hc => heq hc.symm, Or.inr⟩
      by_cases hqm : q ∈ totalsKeys rest
      · rw [if_pos hqm, if_pos (hmem.mpr hqm), totalsKeys_cons]
      · rw [if_neg hqm, if_neg (fun hc => hqm (hmem.mp hc)), totalsKeys_cons,
          List.cons_append]

theorem totalsKeys_nodup_foldl (emp : List Record) : ∀ t : Totals,
    (totalsKeys t).Nodup → (totalsKeys (emp.foldl step t)).Nodup := by
  induction emp with
  | nil => exact fun t h => h
  | cons r rest ih =>
    intro t h
    rw [List.foldl_cons]
    apply ih
    cases hre : recordEntry r with
    | none => simpa [step, hre]
    | some e =>
      have hstep : step t r = updateTotals t e.1 e.2 := by simp [step, hre]
      rw [hstep, totalsKeys_updateTotals]
      by_cases hm : e.1 ∈ totalsKeys t
      · rwa [if_pos hm]
      · rw [if_neg hm]
        simp [List.nodup_append, h, hm]

theorem findTotal_eq_some_of_mem (t : Totals) (e : String × PyVal × Nat)
    (hnd : (totalsKeys t).Nodup) (hm : e ∈ t) : findTotal t e.1 = some e.2 := by
  induction t with
  | nil => simp at hm
  | cons x rest ih =>
    rw [totalsKeys_cons, List.nodup_cons] at hnd
    rcases List.mem_cons.mp hm with rfl | hm'
    · exact findTotal_cons_pos e rest e.1 rfl
    · have hx : ¬ x.1 = e.1 := by
        intro hc
        exact hnd.1 (hc ▸ List.mem_map_of_mem (fun y => y.1) hm')
      rw [findTotal_cons_neg x rest e.1 hx]
      exact ih hnd.2 hm'

theorem mem_of_findTotal_eq_some (t : Totals) (p : String) (sc : PyVal × Nat)
    (h : findTotal t p = some sc) : (p, sc) ∈ t := by
  induction t with
  | nil => simp [findTotal] at h
  | cons x rest ih =>
    by_cases hx : x.1 = p
    · rw [findTotal_cons_pos x rest p hx] at h
      have : x = (p, sc) := by
        cases x with
        | mk x1 x2 =>
          simp only [Option.some.injEq] at h
          simp only at hx
          rw [hx, h]
      exact this ▸ List.mem_cons_self _ _
    · rw [findTotal_cons_neg x rest p hx] at h
      exact List.mem_cons_of_mem x (ih h)

/-! ## Skipping and the empty accumulator -/

theorem skippedRecord_iff_recordEntry (r : Record) :
    skippedRecord r ↔ recordEntry r = none := by
  unfold skippedRecord recordEntry
  cases hpos : dictGet r "position" with
  | none => simp
  | some praw =>
    cases hperf : dictGet r "performance" with
    | none => simp
    | some perfraw =>
      by_cases hs : pyStripStr praw = ""
      · simp [hs]
      · cases hp : pyFloat? perfraw <;> simp [hs, hp]

theorem mem_validPerfs_of_recordEntry (emp : List Record) (r : Record)
    (e : String × PyVal) (hr : r ∈ emp) (hre : recordEntry r = some e) :
    e.2 ∈ validPerfs emp e.1 := by
  unfold validPerfs
  exact List.mem_filterMap.mpr ⟨r, hr, by simp [hre]⟩

theorem foldl_step_nil_iff (emp : List Record) :
    emp.foldl step [] = [] ↔ ∀ r ∈ emp, recordEntry r = none := by
  constructor
  · intro h r hr
    by_contra hne
    cases hre : recordEntry r with
    | none => exact hne hre
    | some e =>
      have hv : e.2 ∈ validPerfs emp e.1 := mem_validPerfs_of_recordEntry emp r e hr hre
      have hnz : validPerfs emp e.1 ≠ [] := fun hc => by simp [hc] at hv
      have := foldl_step_findTotal emp [] e.1
      rw [h] at this
      simp only [findTotal, List.find?_nil, Option.map_none', if_neg hnz] at this
      exact Option.noConfusion this
  · intro h
    induction emp with
    | nil => rfl
    | cons r rest ih =>
      rw [List.foldl_cons]
      have : step [] r = [] := by simp [step, h r (List.mem_cons_self _ _)]
      rw [this]
      exact ih fun r' hr' => h r' (List.mem_cons_of_mem _ hr')

/-- C7: `performance_report` fails with the `noValidData` error exactly when
every input record is skipped (absent field, blank position, or unparseable
performance); and `noValidData` is the only error it ever raises, so
individually malformed records in an otherwise valid sequence never cause a
failure. -/
theorem performance_report_no_valid_data (employees : List Record) :
    (performance_report employees = .error .noValidData ↔
      ∀ r ∈ employees, skippedRecord r) ∧
    (∀ e, performance_report employees = .error e → e = .noValidData) := by
  constructor
  · constructor
    · intro h
      unfold performance_report at h
      by_cases he : (employees.foldl step []).isEmpty
      · intro r hr
        exact (skippedRecord_iff_recordEntry r).mpr
          ((foldl_step_nil_iff employees).mp (List.isEmpty_iff.mp he) r hr)
      · simp [he] at h
    · intro h
      have : employees.foldl step [] = [] :=
        (foldl_step_nil_iff employees).mpr fun r hr =>
          (skippedRecord_iff_recordEntry r).mp (h r hr)
      unfold performance_report
      simp [this]
  · intro e h
    unfold performance_report at h
    by_cases he : (employees.foldl step []).isEmpty
    · simp [he] at h
      exact h.symm
    · simp [he] at h

/-- C9: on success the report carries exactly the headers
`["position", "performance"]` and every row has one cell per header. -/
theorem performance_report_shape (employees : List Record) (res : ReportResult)
    (h : performance_report employees = .ok res) :
    res.headers = ["position", "performance"] ∧
      ∀ row ∈ res.rows, row.length = res.headers.length := by
  unfold performance_report at h
  by_cases he : (employees.foldl step []).isEmpty
  · simp [he] at h
  · simp only [he, if_neg, Bool.false_eq_true, not_false_eq_true, if_false,
      Except.ok.injEq] at h
    subst h
    refine ⟨rfl, ?_⟩
    intro row hrow
    obtain ⟨pr, _, hpr⟩ := List.mem_map.mp hrow
    rw [← hpr]
    rfl

/-- C9 witness. -/
theorem performance_report_shape_witness :
    resAvg.headers = ["position", "performance"] ∧
      ∀ row ∈ resAvg.rows, row.length = resAvg.headers.length :=
  performance_report_shape empAvg resAvg (by with_unfolding_all rfl)

/-- C7 witness: a record with a non-numeric performance is skipped. -/
theorem performance_report_no_valid_data_witness :
    skippedRecord [("position", some "A"), ("performance", some "abc")] :=
  (performance_report_no_valid_data empBad).1.mp (by with_unfolding_all rfl)
    [("position", some "A"), ("performance", some "abc")] (List.mem_cons_self _ _)

/-! ## The sort permutes the rows -/

theorem insertLT_perm (x : String × PyVal) (l : List (String × PyVal)) :
    (insertLT x l).Perm (x :: l) := by
  induction l with
  | nil => exact List.Perm.refl _
  | cons z zs ih =>
    unfold insertLT
    by_cases h : keyLT z x = true
    · rw [if_pos h]
      exact (ih.cons z).trans (List.Perm.swap x z zs)
    · rw [if_neg h]

theorem pySortRows_perm (l : List (String × PyVal)) : (pySortRows l).Perm l := by
  induction l with
  | nil => exact List.Perm.refl _
  | cons x xs ih => exact (insertLT_perm x (pySortRows xs)).trans (ih.cons x)

/-- C1: on success, the report has one row per distinct non-blank stripped
position among the non-skipped records, whose value is the rounded quotient of
the running sum of that position's parseable performance values by their
count; skipped records contribute to no row. -/
theorem performance_report_averages (employees : List Record) (res : ReportResult)
    (h : performance_report employees = .ok res) :
    (∀ p v, [Cell.str p, Cell.num v] ∈ res.rows →
      validPerfs employees p ≠ [] ∧
        v = pyRound2 (pyDiv (pySum (validPerfs employees p))
              (.fin ((validPerfs employees p).length : ℚ)))) ∧
    (∀ p, validPerfs employees p ≠ [] →
      [Cell.str p,
        Cell.num (pyRound2 (pyDiv (pySum (validPerfs employees p))
          (.fin ((validPerfs employees p).length : ℚ))))] ∈ res.rows) := by
  unfold performance_report at h
  by_cases he : (employees.foldl step []).isEmpty
  · simp [he] at h
  · simp only [he, Bool.false_eq_true, not_false_eq_true, if_false, Except.ok.injEq] at h
    subst h
    have hnd : (totalsKeys (employees.foldl step [])).Nodup :=
      totalsKeys_nodup_foldl employees [] List.nodup_nil
    have hinv : ∀ p, findTotal (employees.foldl step []) p =
        if validPerfs employees p = [] then none
        else some (pySum (validPerfs employees p), (validPerfs employees p).length) := by
      intro p
      have h0 : findTotal ([] : Totals) p = none := rfl
      rw [foldl_step_findTotal, h0]
    constructor
    · intro p v hrow
      obtain ⟨pr, hpr, hpr2⟩ := List.mem_map.mp hrow
      have hps : pr.1 = p ∧ pr.2 = v := by
        simpa [Cell.str.injEq, Cell.num.injEq] using hpr2
      obtain ⟨hp1, hp2⟩ := hps
      have hmem : pr ∈ rowsOfTotals (employees.foldl step []) :=
        (pySortRows_perm _).mem_iff.mp hpr
      obtain ⟨en, hen, hen2⟩ := List.mem_map.mp hmem
      have hfd : findTotal (employees.foldl step []) en.1 = some en.2 :=
        findTotal_eq_some_of_mem _ en hnd hen
      rw [hinv en.1] at hfd
      by_cases hz : validPerfs employees en.1 = []
      · rw [if_pos hz] at hfd
        exact Option.noConfusion hfd
      · rw [if_neg hz] at hfd
        have hsum : en.2 = (pySum (validPerfs employees en.1),
            (validPerfs employees en.1).length) := by
          exact (Option.some.inj hfd).symm
        have hpe : en.1 = p := by rw [← hp1, ← hen2]
        subst hpe
        refine ⟨hz, ?_⟩
        rw [← hp2, ← hen2]
        simp [rowsOfTotals, hsum]
    · intro p hnz
      have hfd : findTotal (employees.foldl step []) p =
          some (pySum (validPerfs employees p), (validPerfs employees p).length) := by
        rw [hinv p, if_neg hnz]
      have hmem := mem_of_findTotal_eq_some _ p _ hfd
      have hrow : (p, pyRound2 (pyDiv (pySum (validPerfs employees p))
          (.fin ((validPerfs employees p).length : ℚ)))) ∈
            rowsOfTotals (employees.foldl step []) := by
        refine List.mem_map.mpr ⟨(p, pySum (validPerfs employees p),
          (validPerfs employees p).length), hmem, rfl⟩
      have hsorted := (pySortRows_perm (rowsOfTotals (employees.foldl step []))).mem_iff.mpr hrow
      exact List.mem_map.mpr ⟨_, hsorted, rfl⟩

/-- C1 witness: `A` has performances `4.8` and `5.0`, so its row is
`round((4.8 + 5.0) / 2, 2) = 4.9`. -/
theorem performance_report_averages_witness :
    validPerfs empAvg "A" ≠ [] ∧
      PyVal.fin (49/10) = pyRound2 (pyDiv (pySum (validPerfs empAvg "A"))
        (.fin ((validPerfs empAvg "A").length : ℚ))) :=
  (performance_report_averages empAvg resAvg (by with_unfolding_all rfl)).1 "A"
    (PyVal.fin (49/10)) (List.mem_cons_self _ _)

/-! ## The lexicographic order on names -/

theorem listLt_asymm (a : List Char) : ∀ b, listLt a b = true → listLt b a = false := by
  induction a with
  | nil =>
    intro b h
    cases b with
    | nil => simp [listLt] at h
    | cons y ys => simp [listLt]
  | cons x xs ih =>
    intro b h
    cases b with
    | nil => simp [listLt] at h
    | cons y ys =>
      simp only [listLt] at h ⊢
      by_cases hxy : x < y
      · simp [lt_asymm hxy, hxy]
      · by_cases hyx : y < x
        · simp [hxy, hyx] at h
        · simp only [hxy, hyx, if_false] at h ⊢
          exact ih ys h

theorem listLt_trans (a : List Char) : ∀ b c, listLt a b = true → listLt b c = true →
    listLt a c = true := by
  induction a with
  | nil =>
    intro b c hab hbc
    cases b with
    | nil => simp [listLt] at hab
    | cons y ys =>
      cases c with
      | nil => simp [listLt] at hbc
      | cons z zs => simp [listLt]
  | cons x xs ih =>
    intro b c hab hbc
    cases b with
    | nil => simp [listLt] at hab
    | cons y ys =>
      cases c with
      | nil => simp [listLt] at hbc
      | cons z zs =>
        simp only [listLt] at hab hbc ⊢
        by_cases hxy : x < y
        · by_cases hyz : y < z
          · simp [lt_trans hxy hyz]
          · by_cases hzy : z < y
            · simp [hyz, hzy] at hbc
            · have hyzeq : y = z := le_antisymm (le_of_not_lt hzy) (le_of_not_lt hyz)
              simp [hyzeq ▸ hxy]
        · by_cases hyx : y < x
          · simp [hxy, hyx] at hab
          · have hxyeq : x = y := le_antisymm (le_of_not_lt hyx) (le_of_not_lt hxy)
            subst hxyeq
            simp only [hxy, if_false, lt_irrefl, if_neg (lt_irrefl x)] at hab
            by_cases hyz : x < z
            · simp [hyz]
            · by_cases hzy : z < x
              · simp [hyz, hzy] at hbc
              · simp only [hyz, hzy, if_false] at hbc ⊢
                exact ih ys zs hab hbc

theorem listLt_conn (a : List Char) : ∀ b, listLt a b = false → listLt b a = false →
    a = b := by
  induction a with
  | nil =>
    intro b hab _
    cases b with
    | nil => rfl
    | cons y ys => simp [listLt] at hab
  | cons x xs ih =>
    intro b hab hba
    cases b with
    | nil => simp [listLt] at hba
    | cons y ys =>
      simp only [listLt] at hab hba
      by_cases hxy : x < y
      · simp [hxy] at hab
      · by_cases hyx : y < x
        · simp [hxy, hyx] at hba
        · have hxyeq : x = y := le_antisymm (le_of_not_lt hyx) (le_of_not_lt hxy)
          subst hxyeq
          simp only [lt_irrefl, if_neg (lt_irrefl x), if_false] at hab hba
          rw [ih ys hab hba]

theorem listLe_trans (u v w : List Char) (huv : listLe u v = true) (hvw : listLe v w = true) :
    listLe u w = true := by
  unfold listLe at huv hvw ⊢
  rw [Bool.not_eq_true'] at huv hvw ⊢
  by_contra hwu
  rw [Bool.not_eq_false] at hwu
  cases huv' : listLt u v with
  | true => rw [listLt_trans w u v hwu huv'] at hvw; exact Bool.noConfusion hvw
  | false =>
    rw [listLt_conn u v huv' huv] at hwu
    rw [hwu] at hvw
    exact Bool.noConfusion hvw

theorem isFinite_iff (v : PyVal) : v.isFinite = true ↔ ∃ q, v = .fin q := by
  cases v <;> simp [PyVal.isFinite]

theorem keyLT_fin (p q : String) (a b : ℚ) :
    keyLT (p, .fin a) (q, .fin b) =
      (decide (b < a) || (decide (b = a) && listLt p.data q.data)) := by
  simp only [keyLT, pyNeg, pyLt, pyEq]
  rw [decide_eq_decide.mpr (neg_lt_neg_iff : -a < -b ↔ b < a),
    decide_eq_decide.mpr (by constructor <;> intro h <;> linarith : -a = -b ↔ b = a)]

theorem rowOrdB_fin (p q : String) (a b : ℚ) :
    rowOrdB (p, .fin a) (q, .fin b) =
      (decide (b < a) || (decide (a = b) && listLe p.data q.data)) := by
  simp [rowOrdB, pyLt, pyEq]

theorem rowOrdB_of_not_keyLT (x y : String × PyVal) (hx : x.2.isFinite = true)
    (hy : y.2.isFinite = true) (h : keyLT y x = false) : rowOrdB x y = true := by
  obtain ⟨a, ha⟩ := (isFinite_iff _).mp hx
  obtain ⟨b, hb⟩ := (isFinite_iff _).mp hy
  obtain ⟨p, x2⟩ := x
  obtain ⟨q, y2⟩ := y
  simp only at ha hb
  subst ha hb
  rw [keyLT_fin] at h
  rw [rowOrdB_fin]
  simp only [Bool.or_eq_false_iff, Bool.and_eq_false_iff, decide_eq_false_iff_not,
    Bool.or_eq_true, Bool.and_eq_true, decide_eq_true_eq] at h ⊢
  rcases lt_trichotomy a b with hab | hab | hab
  · exact absurd hab h.1
  · right
    refine ⟨hab, ?_⟩
    rcases h.2 with hc | hc
    · exact absurd hab hc
    · simp [listLe, hc]
  · exact Or.inl hab

theorem rowOrdB_of_keyLT (x y : String × PyVal) (hx : x.2.isFinite = true)
    (hy : y.2.isFinite = true) (h : keyLT y x = true) : rowOrdB y x = true := by
  obtain ⟨a, ha⟩ := (isFinite_iff _).mp hx
  obtain ⟨b, hb⟩ := (isFinite_iff _).mp hy
  obtain ⟨p, x2⟩ := x
  obtain ⟨q, y2⟩ := y
  simp only at ha hb
  subst ha hb
  rw [keyLT_fin] at h
  rw [rowOrdB_fin]
  simp only [Bool.or_eq_true, Bool.and_eq_true, decide_eq_true_eq] at h ⊢
  rcases h with hab | ⟨hab, hqp⟩
  · exact Or.inl hab
  · right
    refine ⟨hab.symm, ?_⟩
    simp [listLe, listLt_asymm _ _ hqp]

theorem rowOrdB_trans (x y z : String × PyVal) (hx : x.2.isFinite = true)
    (hy : y.2.isFinite = true) (hz : z.2.isFinite = true)
    (hxy : rowOrdB x y = true) (hyz : rowOrdB y z = true) : rowOrdB x z = true := by
  obtain ⟨a, ha⟩ := (isFinite_iff _).mp hx
  obtain ⟨b, hb⟩ := (isFinite_iff _).mp hy
  obtain ⟨c, hc⟩ := (isFinite_iff _).mp hz
  obtain ⟨p, x2⟩ := x
  obtain ⟨q, y2⟩ := y
  obtain ⟨r, z2⟩ := z
  simp only at ha hb hc
  subst ha hb hc
  rw [rowOrdB_fin] at hxy hyz ⊢
  simp only [Bool.or_eq_true, Bool.and_eq_true, decide_eq_true_eq] at hxy hyz ⊢
  rcases hxy with hab | ⟨hab, hpq⟩
  · rcases hyz with hbc | ⟨hbc, _⟩
    · exact Or.inl (lt_trans hbc hab)
    · exact Or.inl (hbc ▸ hab)
  · rcases hyz with hbc | ⟨hbc, hqr⟩
    · exact Or.inl (hab ▸ hbc)
    · exact Or.inr ⟨hab.trans hbc, listLe_trans _ _ _ hpq hqr⟩

theorem rowOrdB_total (x y : String × PyVal) (hx : x.2.isFinite = true)
    (hy : y.2.isFinite = true) : rowOrdB x y = true ∨ rowOrdB y x = true := by
  obtain ⟨a, ha⟩ := (isFinite_iff _).mp hx
  obtain ⟨b, hb⟩ := (isFinite_iff _).mp hy
  obtain ⟨p, x2⟩ := x
  obtain ⟨q, y2⟩ := y
  simp only at ha hb
  subst ha hb
  rw [rowOrdB_fin, rowOrdB_fin]
  simp only [Bool.or_eq_true, Bool.and_eq_true, decide_eq_true_eq]
  rcases lt_trichotomy a b with hab | hab | hab
  · exact Or.inr (Or.inl hab)
  · cases hqp : listLt q.data p.data with
    | false => exact Or.inl (Or.inr ⟨hab, by simp [listLe, hqp]⟩)
    | true =>
      exact Or.inr (Or.inr ⟨hab.symm, by simp [listLe, listLt_asymm _ _ hqp]⟩)
  · exact Or.inl (Or.inl hab)

theorem rowOrdB_antisymm (x y : String × PyVal) (hx : x.2.isFinite = true)
    (hy : y.2.isFinite = true) (hxy : rowOrdB x y = true) (hyx : rowOrdB y x = true) :
    x = y := by
  obtain ⟨a, ha⟩ := (isFinite_iff _).mp hx
  obtain ⟨b, hb⟩ := (isFinite_iff _).mp hy
  obtain ⟨p, x2⟩ := x
  obtain ⟨q, y2⟩ := y
  simp only at ha hb
  subst ha hb
  rw [rowOrdB_fin] at hxy hyx
  simp only [Bool.or_eq_true, Bool.and_eq_true, decide_eq_true_eq] at hxy hyx
  rcases hxy with hab | ⟨hab, hpq⟩
  · rcases hyx with hba | ⟨hba, _⟩
    · exact absurd (lt_trans hab hba) (lt_irrefl b)
    · exact absurd (hba ▸ hab) (lt_irrefl a)
  · rcases hyx with hba | ⟨hba, hqp⟩
    · exact absurd (hab ▸ hba) (lt_irrefl b)
    · have hdq : p.data = q.data := by
        unfold listLe at hpq hqp
        rw [Bool.not_eq_true'] at hpq hqp
        exact listLt_conn p.data q.data hqp hpq
      have hpq' : p = q := by
        cases p with
        | mk d1 =>
          cases q with
          | mk d2 => simp only [String.data] at hdq; rw [hdq]
      rw [hpq', hab]

/-! ## Finiteness propagation and sortedness -/

theorem foldl_pyAdd_finite (l : List PyVal) : ∀ acc : PyVal, acc.isFinite = true →
    (∀ v ∈ l, v.isFinite = true) → (l.foldl pyAdd acc).isFinite = true := by
  induction l with
  | nil => intro acc hacc _; exact hacc
  | cons v vs ih =>
    intro acc hacc hl
    rw [List.foldl_cons]
    obtain ⟨a, ha⟩ := (isFinite_iff _).mp hacc
    obtain ⟨b, hb⟩ := (isFinite_iff _).mp (hl v (List.mem_cons_self _ _))
    refine ih (pyAdd acc v) ?_ fun w hw => hl w (List.mem_cons_of_mem _ hw)
    rw [ha, hb]
    rfl

theorem mem_validPerfs_elim (emp : List Record) (p : String) (v : PyVal)
    (hv : v ∈ validPerfs emp p) :
    ∃ r ∈ emp, recordEntry r = some (p, v) := by
  unfold validPerfs at hv
  obtain ⟨r, hr, hf⟩ := List.mem_filterMap.mp hv
  cases hre : recordEntry r with
  | none => rw [hre] at hf; simp at hf
  | some e =>
    rw [hre] at hf
    by_cases hp : e.1 = p
    · simp only [hp, Option.some_bind, if_true, Option.some.injEq, if_pos] at hf
      refine ⟨r, hr, ?_⟩
      rw [hre]
      cases e with
      | mk e1 e2 =>
        simp only at hp hf
        rw [hp, hf]
    · simp [hp] at hf

theorem rowsOfTotals_foldl_finite (employees : List Record)
    (hfin : employees.all (fun r => (recordEntry r).all fun e => e.2.isFinite) = true) :
    ∀ x ∈ rowsOfTotals (employees.foldl step []), x.2.isFinite = true := by
  intro x hx
  obtain ⟨en, hen, hen2⟩ := List.mem_map.mp hx
  have hnd : (totalsKeys (employees.foldl step [])).Nodup :=
    totalsKeys_nodup_foldl employees [] List.nodup_nil
  have hfd : findTotal (employees.foldl step []) en.1 = some en.2 :=
    findTotal_eq_some_of_mem _ en hnd hen
  have h0 : findTotal ([] : Totals) en.1 = none := rfl
  rw [foldl_step_findTotal, h0] at hfd
  by_cases hz : validPerfs employees en.1 = []
  · rw [if_pos hz] at hfd
    exact Option.noConfusion hfd
  · rw [if_neg hz] at hfd
    have hsum : en.2 = (pySum (validPerfs employees en.1),
        (validPerfs employees en.1).length) := (Option.some.inj hfd).symm
    have hvps : ∀ v ∈ validPerfs employees en.1, v.isFinite = true := by
      intro v hv
      obtain ⟨r, hr, hre⟩ := mem_validPerfs_elim employees en.1 v hv
      have := (List.all_eq_true.mp hfin) r hr
      rw [hre] at this
      simpa [Option.all] using this
    have hsfin : (pySum (validPerfs employees en.1)).isFinite = true :=
      foldl_pyAdd_finite _ (.fin 0) rfl hvps
    obtain ⟨s, hs⟩ := (isFinite_iff _).mp hsfin
    have hlen : ((validPerfs employees en.1).length : ℚ) ≠ 0 := by
      have : validPerfs employees en.1 ≠ [] := hz
      have hpos : 0 < (validPerfs employees en.1).length := List.length_pos.mpr this
      exact_mod_cast Nat.cast_ne_zero.mpr (Nat.pos_iff_ne_zero.mp hpos)
    rw [← hen2]
    simp only [hsum, hs]
    have hdiv : pyDiv (.fin s) (.fin ((validPerfs employees en.1).length : ℚ)) =
        .fin (s / ((validPerfs employees en.1).length : ℚ)) := by
      simp [pyDiv, hlen]
    rw [hdiv]
    rfl

theorem insertLT_pairwise (x : String × PyVal) (l : List (String × PyVal))
    (hx : x.2.isFinite = true) (hl : ∀ y ∈ l, y.2.isFinite = true)
    (hp : l.Pairwise fun a b => rowOrdB a b = true) :
    (insertLT x l).Pairwise fun a b => rowOrdB a b = true := by
  induction l with
  | nil => simp [insertLT]
  | cons y ys ih =>
    rw [List.pairwise_cons] at hp
    have hyfin : y.2.isFinite = true := hl y (List.mem_cons_self _ _)
    have hysfin : ∀ z ∈ ys, z.2.isFinite = true := fun z hz => hl z (List.mem_cons_of_mem _ hz)
    unfold insertLT
    by_cases h : keyLT y x = true
    · rw [if_pos h, List.pairwise_cons]
      constructor
      · intro z hz
        rcases List.mem_cons.mp ((insertLT_perm x ys).mem_iff.mp hz) with rfl | hz'
        · exact rowOrdB_of_keyLT z y hx hyfin h
        · exact hp.1 z hz'
      · exact ih hysfin hp.2
    · rw [if_neg h, List.pairwise_cons]
      have hxy : rowOrdB x y = true :=
        rowOrdB_of_not_keyLT x y hx hyfin (Bool.not_eq_true _ ▸ h)
      constructor
      · intro z hz
        rcases List.mem_cons.mp hz with rfl | hz'
        · exact hxy
        · exact rowOrdB_trans x y z hx hyfin (hysfin z hz') hxy (hp.1 z hz')
      · exact List.pairwise_cons.mpr hp

theorem pySortRows_pairwise (l : List (String × PyVal))
    (hl : ∀ y ∈ l, y.2.isFinite = true) :
    (pySortRows l).Pairwise fun a b => rowOrdB a b = true := by
  induction l with
  | nil => simp [pySortRows]
  | cons x xs ih =>
    have hx : x.2.isFinite = true := hl x (List.mem_cons_self _ _)
    have hxs : ∀ y ∈ xs, y.2.isFinite = true := fun y hy => hl y (List.mem_cons_of_mem _ hy)
    have hsorted : ∀ y ∈ pySortRows xs, y.2.isFinite = true := fun y hy =>
      hxs y ((pySortRows_perm xs).mem_iff.mp hy)
    exact insertLT_pairwise x (pySortRows xs) hx hsorted (ih hxs)

/-- C2 (amended): on every success whose records parse only to finite
performance values, the rows are sorted by strictly descending average with
ties broken by ascending position name, and that composite comparison is a
total order (total and antisymmetric) on the produced rows. -/
theorem performance_report_sorted (employees : List Record) (res : ReportResult)
    (h : performance_report employees = .ok res)
    (hfin : employees.all (fun r => (recordEntry r).all fun e => e.2.isFinite) = true) :
    res.rows.Pairwise (fun a b => cellOrdB a b = true) ∧
      (∀ r1 ∈ res.rows, ∀ r2 ∈ res.rows, cellOrdB r1 r2 = true ∨ cellOrdB r2 r1 = true) ∧
      (∀ r1 ∈ res.rows, ∀ r2 ∈ res.rows,
        cellOrdB r1 r2 = true → cellOrdB r2 r1 = true → r1 = r2) := by
  unfold performance_report at h
  by_cases he : (employees.foldl step []).isEmpty
  · simp [he] at h
  · simp only [he, Bool.false_eq_true, not_false_eq_true, if_false, Except.ok.injEq] at h
    subst h
    have hfins : ∀ x ∈ pySortRows (rowsOfTotals (employees.foldl step [])),
        x.2.isFinite = true := fun x hx =>
      rowsOfTotals_foldl_finite employees hfin x
        ((pySortRows_perm _).mem_iff.mp hx)
    refine ⟨?_, ?_, ?_⟩
    · rw [List.pairwise_map]
      have := pySortRows_pairwise (rowsOfTotals (employees.foldl step []))
        (rowsOfTotals_foldl_finite employees hfin)
      exact this.imp fun {a b} hab => by simpa [cellOrdB] using hab
    · intro r1 h1 r2 h2
      obtain ⟨p1, hp1, hp1e⟩ := List.mem_map.mp h1
      obtain ⟨p2, hp2, hp2e⟩ := List.mem_map.mp h2
      subst hp1e hp2e
      have := rowOrdB_total p1 p2 (hfins p1 hp1) (hfins p2 hp2)
      simpa [cellOrdB] using this
    · intro r1 h1 r2 h2 h12 h21
      obtain ⟨p1, hp1, hp1e⟩ := List.mem_map.mp h1
      obtain ⟨p2, hp2, hp2e⟩ := List.mem_map.mp h2
      subst hp1e hp2e
      simp only [cellOrdB] at h12 h21
      have := rowOrdB_antisymm p1 p2 (hfins p1 hp1) (hfins p2 hp2) h12 h21
      rw [this]

/-- C2 witness: a tie between `A` and `B` at `4.5`; the sorted, total-order
conclusion holds of the concrete report, `A` first. -/
theorem performance_report_sorted_witness :
    resTie.rows.Pairwise (fun a b => cellOrdB a b = true) ∧
      (∀ r1 ∈ resTie.rows, ∀ r2 ∈ resTie.rows,
        cellOrdB r1 r2 = true ∨ cellOrdB r2 r1 = true) ∧
      (∀ r1 ∈ resTie.rows, ∀ r2 ∈ resTie.rows,
        cellOrdB r1 r2 = true → cellOrdB r2 r1 = true → r1 = r2) :=
  performance_report_sorted empTie resTie (by with_unfolding_all rfl)
    (by with_unfolding_all rfl)

/-- C2 counterexample: with a `"nan"` performance for `B` and a valid row for
`A`, the report succeeds but its rows are not sorted by the composite
comparison, and the comparison relates the two produced rows in neither
direction, so it is not a total order on them. -/
theorem performance_report_sorted_counterexample :
    performance_report empNan = .ok resNan ∧
      ¬ resNan.rows.Pairwise (fun a b => cellOrdB a b = true) ∧
      cellOrdB [Cell.str "B", Cell.num PyVal.nan]
        [Cell.str "A", Cell.num (PyVal.fin 1)] = false ∧
      cellOrdB [Cell.str "A", Cell.num (PyVal.fin 1)]
        [Cell.str "B", Cell.num PyVal.nan] = false ∧
      ([Cell.str "B", Cell.num PyVal.nan] : List Cell) ≠
        [Cell.str "A", Cell.num (PyVal.fin 1)] := by
  refine ⟨by with_unfolding_all rfl, ?_, by decide, by decide, by decide⟩
  intro hpair
  rw [show resNan.rows = [[Cell.str "B", Cell.num PyVal.nan],
    [Cell.str "A", Cell.num (PyVal.fin 1)]] from rfl, List.pairwise_cons] at hpair
  have := hpair.1 [Cell.str "A", Cell.num (PyVal.fin 1)] (List.mem_cons_self _ _)
  rw [show cellOrdB [Cell.str "B", Cell.num PyVal.nan]
    [Cell.str "A", Cell.num (PyVal.fin 1)] = false by decide] at this
  exact Bool.noConfusion this

/-- C10: `float()` accepts `"nan"` and `"inf"`; a record whose performance is
`"nan"` is not skipped, its position's reported average is the non-finite NaN
value, and the sort's key comparison applied to that NaN row is neither
reflexive nor an equality test (`nan == nan` is false), so the comparator
works on a NaN key. -/
theorem performance_report_nan_not_skipped :
    pyFloat? "nan" = some PyVal.nan ∧
      pyFloat? "inf" = some PyVal.inf ∧
      recordEntry [("position", some "A"), ("performance", some "nan")] =
        some ("A", PyVal.nan) ∧
      ¬ skippedRecord [("position", some "A"), ("performance", some "nan")] ∧
      performance_report empNanOnly = .ok resNanOnly ∧
      resNanOnly.rows = [[Cell.str "A", Cell.num PyVal.nan]] ∧
      PyVal.nan.isFinite = false ∧
      keyLT ("A", PyVal.nan) ("A", PyVal.nan) = false ∧
      pyEq PyVal.nan PyVal.nan = false := by
  refine ⟨by decide, by decide, by decide, ?_, by with_unfolding_all rfl, rfl,
    rfl, by decide, rfl⟩
  intro hskip
  rw [skippedRecord_iff_recordEntry] at hskip
  rw [show recordEntry [("position", some "A"), ("performance", some "nan")] =
    some ("A", PyVal.nan) by decide] at hskip
  exact Option.noConfusion hskip
